import Mathlib

/-!
Verification development for the `cfg` grammar-normalization history subsystem.

The repository surfaces (via rustdoc) an enum `BinarizedRhsSubset`, a struct
`NullHistory` and the traits `Action`, `AssignPrecedence`, `Binarize`,
`EliminateNulling`, `RewriteSequence`; the implementations themselves are not
available, so every operation below is modelled from the specification's
description of the rule-history data model and the four rewrite passes
(sequence rewriting, nulling elimination, binarization, precedence assignment).
-/

set_option autoImplicit false

/-- Modelled from the spec: a CSym (symbol) is an opaque integer handle owned by the
external symbol table. -/
abbrev CSym := Nat

/-- Modelled from the spec: `BinarizedRhsSubset` identifies, for a binarized
derived rule, which portion of the original RHS the rule covers. Variants per
the spec: `Left` (left/initial portion), `Right` (remaining/tail portion),
`None` (no binarization split, e.g. already binary). The rustdoc one-liner in
the repository instead summarises the enum as informing which RHS symbols are
nullable and will be eliminated; the enum's real variants and uses are not in
the available source, so the spec's reading is what is modelled here. -/
inductive BinarizedRhsSubset where
  | Left
  | Right
  | None
deriving DecidableEq, Repr

/-- Modelled from the spec: associativity payload for precedence assignment. -/
inductive Associativity where
  | Left
  | Right
deriving DecidableEq, Repr

/-- Modelled from the spec: the error kinds detected at normalization time. -/
inductive CfgError where
  | DuplicateActionError
  | PrecedenceConflictError
  | InvalidRepetitionRangeError
  | GrammarTooLargeError
deriving DecidableEq, Repr

/-- Modelled from the spec (design note 9): one History representation storing
optional payload fields for each capability — action id, precedence,
elided original-RHS positions, binarization provenance, sequence-rewrite tag.
A capability is "supported" when its payload is present. -/
structure History where
  action : Option Nat
  precedence : Option (Nat × Associativity)
  elided : List Nat
  binarized : BinarizedRhsSubset
  seqRewritten : Bool
deriving DecidableEq, Repr

/-- Modelled from the spec: `NullHistory` is the all-absent History value,
the default for freshly authored rules. -/
def NullHistory : History :=
  { action := none, precedence := none, elided := [],
    binarized := BinarizedRhsSubset.None, seqRewritten := false }

/-- Modelled from the spec: a grammar production annotated with a History. -/
structure Rule where
  lhs : CSym
  rhs : List CSym
  history : History
deriving DecidableEq, Repr

/-- Modelled from the spec: `get_action() -> optional ActionId`. -/
def get_action (h : History) : Option Nat := h.action

/-- Modelled from the spec: `set_action(ActionId)`; a rule may carry at most
one ActionId, setting it twice is `DuplicateActionError` unless the second
set is idempotent (same id). -/
def set_action (h : History) (a : Nat) : Except CfgError History :=
  match h.action with
  | none => .ok { h with action := some a }
  | some b => if b = a then .ok h else .error CfgError.DuplicateActionError

/-- Modelled from the spec: `get_precedence() -> optional (level, assoc)`. -/
def get_precedence (h : History) : Option (Nat × Associativity) := h.precedence

/-- Modelled from the spec: `assign_precedence(level, assoc)`; assigning a
precedence different from an already-present one is `PrecedenceConflictError`
rather than an overwrite. -/
def assign_precedence (h : History) (lvl : Nat) (assoc : Associativity) :
    Except CfgError History :=
  match h.precedence with
  | none => .ok { h with precedence := some (lvl, assoc) }
  | some p =>
      if p = (lvl, assoc) then .ok h else .error CfgError.PrecedenceConflictError

/-- List concatenation of the images of a list under a list-valued function. -/
def concatMap {α β : Type} (f : α → List β) : List α → List β
  | [] => []
  | x :: xs => f x ++ concatMap f xs

/-- Modelled from the spec: the tail of the left-leaning binarization chain.
`binChain lhs0 h cur rest c` covers the remaining original symbols `rest`,
given that synthetic symbol `cur` already derives the prefix; `c` is the next
fresh symbol. Every chain rule is tagged `Right` (its non-synthetic child
covers a tail portion of the original RHS). -/
def binChain (lhs0 : CSym) (h : History) (cur : CSym) (rest : List CSym)
    (c : Nat) : List Rule × Nat :=
  match rest with
  | [] => ([⟨lhs0, [cur], { h with binarized := BinarizedRhsSubset.Right }⟩], c)
  | [s] => ([⟨lhs0, [cur, s], { h with binarized := BinarizedRhsSubset.Right }⟩], c)
  | s :: s2 :: rest2 =>
      (⟨c, [cur, s], { h with binarized := BinarizedRhsSubset.Right }⟩ ::
        (binChain lhs0 h c (s2 :: rest2) (c + 1)).1,
       (binChain lhs0 h c (s2 :: rest2) (c + 1)).2)

/-- Modelled from the spec: `binarize` rewrites a rule with RHS length > 2
into a left-associative chain of n-1 binary rules; the innermost rule covers
the first two original symbols and is tagged `Left`, intermediate rules get
freshly allocated synthetic LHS symbols (from counter `c`), and the final
rule's LHS is the original LHS. RHS length 0, 1 or 2 returns the input rule
unchanged in a single-element result. -/
def binarize (r : Rule) (c : Nat) : List Rule × Nat :=
  match r.rhs with
  | s0 :: s1 :: s2 :: rest =>
      (⟨c, [s0, s1], { r.history with binarized := BinarizedRhsSubset.Left }⟩ ::
        (binChain r.lhs r.history c (s2 :: rest) (c + 1)).1,
       (binChain r.lhs r.history c (s2 :: rest) (c + 1)).2)
  | _ => ([r], c)

/-- Modelled from the spec: read a binarized chain's leaves through the
`BinarizedRhsSubset` tags — a `Left`-tagged rule contributes its whole RHS,
a `Right`-tagged rule contributes the tail (its non-synthetic child), an
untagged rule contributes its whole RHS. -/
def leavesRead (rs : List Rule) : List CSym :=
  concatMap (fun r =>
    match r.history.binarized with
    | BinarizedRhsSubset.Left => r.rhs
    | BinarizedRhsSubset.Right => r.rhs.tail
    | BinarizedRhsSubset.None => r.rhs) rs

/-- The chain-link relation between consecutive rules of a binarized chain:
the later rule's first RHS symbol is the earlier rule's LHS. -/
def chainLink (a b : Rule) : Prop := b.rhs.head? = some a.lhs

-- Helper lemmas about the binarization chain.

theorem binChain_length (lhs0 : CSym) (h : History) :
    ∀ (rest : List CSym) (s cur : CSym) (c : Nat),
      ((binChain lhs0 h cur (s :: rest) c).1).length = rest.length + 1 := by
  intro rest
  induction rest with
  | nil => intro s cur c; rfl
  | cons s2 rest2 ih =>
      intro s cur c
      simp [binChain, ih s2 c (c + 1)]

theorem binChain_counter (lhs0 : CSym) (h : History) :
    ∀ (rest : List CSym) (s cur : CSym) (c : Nat),
      (binChain lhs0 h cur (s :: rest) c).2 = c + rest.length := by
  intro rest
  induction rest with
  | nil => intro s cur c; rfl
  | cons s2 rest2 ih =>
      intro s cur c
      simp [binChain, ih s2 c (c + 1)]
      omega

theorem binChain_lhs_map (lhs0 : CSym) (h : History) :
    ∀ (rest : List CSym) (s cur : CSym) (c : Nat),
      ((binChain lhs0 h cur (s :: rest) c).1).map (fun r => r.lhs) =
        List.range' c rest.length ++ [lhs0] := by
  intro rest
  induction rest with
  | nil => intro s cur c; rfl
  | cons s2 rest2 ih =>
      intro s cur c
      simp only [binChain, List.map_cons, ih s2 c (c + 1)]
      rfl

theorem binChain_mem (lhs0 : CSym) (h : History) :
    ∀ (rest : List CSym) (s cur : CSym) (c : Nat),
      ∀ r ∈ (binChain lhs0 h cur (s :: rest) c).1,
        r.rhs.length = 2 ∧
        r.history = { h with binarized := BinarizedRhsSubset.Right } := by
  intro rest
  induction rest with
  | nil =>
      intro s cur c r hr
      simp [binChain] at hr
      subst hr
      exact ⟨rfl, rfl⟩
  | cons s2 rest2 ih =>
      intro s cur c r hr
      simp only [binChain, List.mem_cons] at hr
      rcases hr with hr | hr
      · subst hr; exact ⟨rfl, rfl⟩
      · exact ih s2 c (c + 1) r hr

theorem binChain_leaves (lhs0 : CSym) (h : History) :
    ∀ (rest : List CSym) (s cur : CSym) (c : Nat),
      leavesRead (binChain lhs0 h cur (s :: rest) c).1 = s :: rest := by
  intro rest
  induction rest with
  | nil => intro s cur c; rfl
  | cons s2 rest2 ih =>
      intro s cur c
      simp only [binChain, leavesRead, concatMap]
      have := ih s2 c (c + 1)
      simp only [leavesRead] at this
      simp [this]

theorem binChain_head (lhs0 : CSym) (h : History) :
    ∀ (rest : List CSym) (s cur : CSym) (c : Nat),
      ((binChain lhs0 h cur (s :: rest) c).1).head?.bind (fun r => r.rhs.head?) =
        some cur := by
  intro rest
  induction rest with
  | nil => intro s cur c; rfl
  | cons s2 rest2 ih => intro s cur c; rfl

theorem binChain_chain (lhs0 : CSym) (h : History) :
    ∀ (rest : List CSym) (s cur : CSym) (c : Nat),
      List.Chain' chainLink (binChain lhs0 h cur (s :: rest) c).1 := by
  intro rest
  induction rest with
  | nil => intro s cur c; simp [binChain]
  | cons s2 rest2 ih =>
      intro s cur c
      simp only [binChain]
      have hhd := binChain_head lhs0 h rest2 s2 c (c + 1)
      have htl := ih s2 c (c + 1)
      cases hcs : (binChain lhs0 h c (s2 :: rest2) (c + 1)).1 with
      | nil => simp
      | cons b bs =>
          rw [hcs] at hhd htl
          refine List.chain'_cons.mpr ⟨?_, htl⟩
          simp only [List.head?] at hhd
          simpa [chainLink] using hhd

/-- Modelled from the spec: positions of nullable symbols on an RHS, indexed
from `i`; `nbl` is the externally computed `is_nullable` predicate. -/
def nullablePositionsAux (nbl : CSym → Bool) : List CSym → Nat → List Nat
  | [], _ => []
  | x :: xs, i =>
      if nbl x then i :: nullablePositionsAux nbl xs (i + 1)
      else nullablePositionsAux nbl xs (i + 1)

/-- Modelled from the spec: the nullable-position set P of an RHS. -/
def nullablePositions (nbl : CSym → Bool) (rhs : List CSym) : List Nat :=
  nullablePositionsAux nbl rhs 0

/-- Remove from an RHS (indexed from `i`) the symbols at the positions in `S`. -/
def elideRhsAux : List CSym → Nat → List Nat → List CSym
  | [], _, _ => []
  | x :: xs, i, S =>
      if i ∈ S then elideRhsAux xs (i + 1) S
      else x :: elideRhsAux xs (i + 1) S

/-- Modelled from the spec: the RHS left after eliding the positions in `S`. -/
def elideRhs (rhs : List CSym) (S : List Nat) : List CSym := elideRhsAux rhs 0 S

/-- The original-RHS positions retained after eliding the positions in `S`. -/
def retainedPositionsAux : List CSym → Nat → List Nat → List Nat
  | [], _, _ => []
  | _ :: xs, i, S =>
      if i ∈ S then retainedPositionsAux xs (i + 1) S
      else i :: retainedPositionsAux xs (i + 1) S

/-- The original-RHS positions retained by an elision. -/
def retainedPositions (rhs : List CSym) (S : List Nat) : List Nat :=
  retainedPositionsAux rhs 0 S

/-- Set union on position lists (left-biased, duplicate-free extension). -/
def unionPos (a b : List Nat) : List Nat :=
  a ++ b.filter (fun j => !(decide (j ∈ a)))

/-- Modelled from the spec: merged Histories union their elision facts while
keeping the (identical) action and precedence payload of the first. -/
def historyUnion (h1 h2 : History) : History :=
  { h1 with elided := unionPos h1.elided h2.elided }

/-- The syntactic identity of a production: its LHS and RHS. -/
def ruleKey (r : Rule) : CSym × List CSym := (r.lhs, r.rhs)

/-- Insert a rule into a merged list: a syntactically identical entry absorbs
it by unioning Histories, otherwise it is appended. -/
def insertMerged : List Rule → Rule → List Rule
  | [], r => [r]
  | a :: rest, r =>
      if ruleKey a = ruleKey r then
        { a with history := historyUnion a.history r.history } :: rest
      else a :: insertMerged rest r

/-- Modelled from the spec: merge syntactically identical rules, unioning
their Histories, to avoid duplicate productions. -/
def mergeRules (rs : List Rule) : List Rule := rs.foldl insertMerged []

/-- Modelled from the spec: the variant of a rule obtained by eliding the
nullable positions in `S`, its History tagged with the elided positions. -/
def elideVariant (r : Rule) (S : List Nat) : Rule :=
  ⟨r.lhs, elideRhs r.rhs S,
   { r.history with elided := unionPos r.history.elided S }⟩

/-- Modelled from the spec: `eliminate_nulling` produces one variant per
retained-versus-elided subset of the nullable-position set, merging variants
that become syntactically identical. -/
def eliminate_nulling (r : Rule) (nbl : CSym → Bool) : List Rule :=
  mergeRules (((nullablePositions nbl r.rhs).sublists).map (elideVariant r))

-- Helper lemmas about elision.

theorem elideRhsAux_nil_elide (rhs : List CSym) :
    ∀ i, elideRhsAux rhs i [] = rhs := by
  induction rhs with
  | nil => intro i; rfl
  | cons x xs ih => intro i; simp [elideRhsAux, ih (i + 1)]

theorem unionPos_nil (a : List Nat) : unionPos a [] = a := by
  simp [unionPos]

theorem mem_unionPos (a b : List Nat) (j : Nat) :
    j ∈ unionPos a b ↔ j ∈ a ∨ j ∈ b := by
  simp only [unionPos, List.mem_append, List.mem_filter, Bool.not_eq_eq_eq_not,
    Bool.not_true, decide_eq_false_iff_not]
  constructor
  · rintro (h | ⟨h, _⟩)
    · exact Or.inl h
    · exact Or.inr h
  · intro h
    by_cases ha : j ∈ a
    · exact Or.inl ha
    · rcases h with h | h
      · exact absurd h ha
      · exact Or.inr ⟨h, ha⟩

theorem elideVariant_nil (r : Rule) : elideVariant r [] = r := by
  cases r with
  | mk lhs rhs history =>
      cases history with
      | mk a p e b s =>
          simp [elideVariant, elideRhs, elideRhsAux_nil_elide, unionPos_nil]

theorem nullablePositionsAux_false (nbl : CSym → Bool)
    (hnbl : ∀ x, nbl x = false) (rhs : List CSym) :
    ∀ i, nullablePositionsAux nbl rhs i = [] := by
  induction rhs with
  | nil => intro i; rfl
  | cons x xs ih => intro i; simp [nullablePositionsAux, hnbl x, ih (i + 1)]

theorem nullablePositionsAux_lb (nbl : CSym → Bool) (rhs : List CSym) :
    ∀ i j, j ∈ nullablePositionsAux nbl rhs i → i ≤ j := by
  induction rhs with
  | nil => intro i j hj; simp [nullablePositionsAux] at hj
  | cons x xs ih =>
      intro i j hj
      simp only [nullablePositionsAux] at hj
      by_cases hx : nbl x
      · rw [if_pos hx] at hj
        rcases List.mem_cons.mp hj with h | h
        · omega
        · have := ih (i + 1) j h; omega
      · rw [if_neg hx] at hj
        have := ih (i + 1) j hj; omega

theorem nullablePositionsAux_ub (nbl : CSym → Bool) (rhs : List CSym)
    (hall : ∀ x ∈ rhs, nbl x = true) :
    ∀ i j, i ≤ j → j < i + rhs.length → j ∈ nullablePositionsAux nbl rhs i := by
  induction rhs with
  | nil => intro i j h1 h2; simp at h2; omega
  | cons x xs ih =>
      intro i j h1 h2
      have hx : nbl x = true := hall x (List.mem_cons_self x xs)
      simp only [nullablePositionsAux, hx, if_pos]
      rcases Nat.eq_or_lt_of_le h1 with rfl | hlt
      · exact List.mem_cons_self _ _
      · refine List.mem_cons_of_mem _ ?_
        refine ih (fun y hy => hall y (List.mem_cons_of_mem x hy)) (i + 1) j hlt ?_
        simp only [List.length_cons] at h2
        omega

theorem elideRhsAux_all_nullable (nbl : CSym → Bool) (rhs : List CSym)
    (hall : ∀ x ∈ rhs, nbl x = true) :
    ∀ i S, (∀ j, i ≤ j → j < i + rhs.length → j ∈ S) →
      elideRhsAux rhs i S = [] := by
  induction rhs with
  | nil => intro i S _; rfl
  | cons x xs ih =>
      intro i S hS
      have hi : i ∈ S := by
        refine hS i (Nat.le_refl i) ?_
        simp only [List.length_cons]
        omega
      simp only [elideRhsAux, if_pos hi]
      refine ih (fun y hy => hall y (List.mem_cons_of_mem x hy)) (i + 1) S ?_
      intro j h1 h2
      refine hS j (by omega) ?_
      simp only [List.length_cons]
      omega

theorem elideRhsAux_empty_all_nullable (nbl : CSym → Bool) (rhs : List CSym) :
    ∀ i S, (∀ j, j ∈ S → i ≤ j → j ∈ nullablePositionsAux nbl rhs i) →
      elideRhsAux rhs i S = [] → ∀ x ∈ rhs, nbl x = true := by
  induction rhs with
  | nil => intro i S _ _ x hx; simp at hx
  | cons x xs ih =>
      intro i S hS hE
      by_cases hi : i ∈ S
      · have hiP : i ∈ nullablePositionsAux nbl (x :: xs) i :=
          hS i hi (Nat.le_refl i)
        have hx : nbl x = true := by
          by_contra hx
          simp only [nullablePositionsAux, if_neg hx] at hiP
          have := nullablePositionsAux_lb nbl xs (i + 1) i hiP
          omega
        intro y hy
        rcases List.mem_cons.mp hy with rfl | hy2
        · exact hx
        · refine ih (i + 1) S ?_ ?_ y hy2
          · intro j hj hij
            have hjP : j ∈ nullablePositionsAux nbl (x :: xs) i :=
              hS j hj (by omega)
            simp only [nullablePositionsAux, hx, if_pos] at hjP
            rcases List.mem_cons.mp hjP with rfl | hj2
            · omega
            · exact hj2
          · simpa [elideRhsAux, if_pos hi] using hE
      · exfalso
        simp only [elideRhsAux, if_neg hi] at hE
        exact List.cons_ne_nil _ _ hE

theorem elideRhsAux_nulling_free (nbl : CSym → Bool) (rhs : List CSym) :
    ∀ i S, (∀ j, j ∈ nullablePositionsAux nbl rhs i → j ∈ S) →
      ∀ x ∈ elideRhsAux rhs i S, nbl x = false := by
  induction rhs with
  | nil => intro i S _ x hx; simp [elideRhsAux] at hx
  | cons x xs ih =>
      intro i S hS y hy
      by_cases hx : nbl x
      · have hi : i ∈ S := by
          refine hS i ?_
          simp [nullablePositionsAux, hx]
        simp only [elideRhsAux, if_pos hi] at hy
        refine ih (i + 1) S ?_ y hy
        intro j hj
        refine hS j ?_
        simp only [nullablePositionsAux, hx, if_pos]
        exact List.mem_cons_of_mem _ hj
      · have hsub : ∀ j, j ∈ nullablePositionsAux nbl xs (i + 1) → j ∈ S := by
          intro j hj
          refine hS j ?_
          simpa [nullablePositionsAux, hx] using hj
        simp only [elideRhsAux] at hy
        by_cases hi : i ∈ S
        · rw [if_pos hi] at hy
          exact ih (i + 1) S hsub y hy
        · rw [if_neg hi] at hy
          rcases List.mem_cons.mp hy with rfl | hy2
          · simpa using hx
          · exact ih (i + 1) S hsub y hy2

theorem retainedPositionsAux_not_elided (rhs : List CSym) :
    ∀ i S, ∀ j ∈ retainedPositionsAux rhs i S, j ∉ S := by
  induction rhs with
  | nil => intro i S j hj; simp [retainedPositionsAux] at hj
  | cons x xs ih =>
      intro i S j hj
      simp only [retainedPositionsAux] at hj
      by_cases hi : i ∈ S
      · rw [if_pos hi] at hj
        exact ih (i + 1) S j hj
      · rw [if_neg hi] at hj
        rcases List.mem_cons.mp hj with rfl | hj2
        · exact hi
        · exact ih (i + 1) S j hj2

-- Helper lemmas about merging.

theorem insertMerged_keys (r : Rule) :
    ∀ acc : List Rule,
      (insertMerged acc r).map ruleKey =
        if ruleKey r ∈ acc.map ruleKey then acc.map ruleKey
        else acc.map ruleKey ++ [ruleKey r] := by
  intro acc
  induction acc with
  | nil => simp [insertMerged]
  | cons a rest ih =>
      by_cases hk : ruleKey a = ruleKey r
      · simp only [insertMerged, if_pos hk, List.map_cons]
        have hmem : ruleKey r ∈ ruleKey a :: rest.map ruleKey := by
          rw [hk]; exact List.mem_cons_self _ _
        rw [if_pos hmem]
        have : ruleKey { a with history := historyUnion a.history r.history } =
            ruleKey a := rfl
        rw [this]
      · simp only [insertMerged, if_neg hk, List.map_cons, ih]
        have hmem : (ruleKey r ∈ ruleKey a :: rest.map ruleKey) ↔
            ruleKey r ∈ rest.map ruleKey := by
          simp only [List.mem_cons]
          constructor
          · rintro (h | h)
            · exact absurd h.symm hk
            · exact h
          · exact Or.inr
        by_cases hm : ruleKey r ∈ rest.map ruleKey
        · rw [if_pos hm, if_pos (hmem.mpr hm)]
        · rw [if_neg hm, if_neg (fun hc => hm (hmem.mp hc))]
          simp

theorem insertMerged_keys_nodup (r : Rule) (acc : List Rule)
    (hnd : (acc.map ruleKey).Nodup) :
    ((insertMerged acc r).map ruleKey).Nodup := by
  rw [insertMerged_keys]
  by_cases hm : ruleKey r ∈ acc.map ruleKey
  · rw [if_pos hm]; exact hnd
  · rw [if_neg hm]
    simp only [List.nodup_append, List.nodup_cons, List.not_mem_nil,
      not_false_iff, List.nodup_nil, and_true, true_and]
    constructor
    · exact hnd
    · intro x hx
      simp only [List.mem_singleton]
      intro hc
      exact hm (hc ▸ hx)

theorem mergeRules_foldl_keys_nodup :
    ∀ (l acc : List Rule), (acc.map ruleKey).Nodup →
      ((l.foldl insertMerged acc).map ruleKey).Nodup := by
  intro l
  induction l with
  | nil => intro acc h; exact h
  | cons x xs ih =>
      intro acc h
      exact ih (insertMerged acc x) (insertMerged_keys_nodup x acc h)

theorem mergeRules_keys_nodup (l : List Rule) :
    ((mergeRules l).map ruleKey).Nodup :=
  mergeRules_foldl_keys_nodup l [] (by simp)

theorem insertMerged_action (a0 : Option Nat) (r : Rule)
    (hr : r.history.action = a0) :
    ∀ acc : List Rule, (∀ x ∈ acc, x.history.action = a0) →
      ∀ x ∈ insertMerged acc r, x.history.action = a0 := by
  intro acc
  induction acc with
  | nil =>
      intro _ x hx
      simp only [insertMerged, List.mem_singleton] at hx
      subst hx; exact hr
  | cons a rest ih =>
      intro hacc x hx
      simp only [insertMerged] at hx
      by_cases hk : ruleKey a = ruleKey r
      · rw [if_pos hk] at hx
        rcases List.mem_cons.mp hx with rfl | hx2
        · exact hacc a (List.mem_cons_self _ _)
        · exact hacc x (List.mem_cons_of_mem _ hx2)
      · rw [if_neg hk] at hx
        rcases List.mem_cons.mp hx with rfl | hx2
        · exact hacc x (List.mem_cons_self _ _)
        · exact ih (fun y hy => hacc y (List.mem_cons_of_mem _ hy)) x hx2

theorem mergeRules_foldl_action (a0 : Option Nat) :
    ∀ (l acc : List Rule), (∀ x ∈ l, x.history.action = a0) →
      (∀ x ∈ acc, x.history.action = a0) →
      ∀ x ∈ l.foldl insertMerged acc, x.history.action = a0 := by
  intro l
  induction l with
  | nil => intro acc _ hacc x hx; exact hacc x hx
  | cons y ys ih =>
      intro acc hl hacc x hx
      refine ih (insertMerged acc y) (fun z hz => hl z (List.mem_cons_of_mem _ hz))
        (insertMerged_action a0 y (hl y (List.mem_cons_self _ _)) acc hacc) x hx

theorem insertMerged_self_witness (acc : List Rule) (r : Rule) :
    ∃ m ∈ insertMerged acc r, ruleKey m = ruleKey r ∧
      ∀ j ∈ r.history.elided, j ∈ m.history.elided := by
  induction acc with
  | nil =>
      refine ⟨r, List.mem_cons_self _ _, rfl, fun j hj => hj⟩
  | cons a rest ih =>
      by_cases hk : ruleKey a = ruleKey r
      · refine ⟨{ a with history := historyUnion a.history r.history },
          ?_, hk, ?_⟩
        · simp [insertMerged, if_pos hk]
        · intro j hj
          simp only [historyUnion]
          exact (mem_unionPos a.history.elided r.history.elided j).mpr (Or.inr hj)
      · rcases ih with ⟨m, hm, hkey, helide⟩
        refine ⟨m, ?_, hkey, helide⟩
        simp only [insertMerged, if_neg hk]
        exact List.mem_cons_of_mem _ hm

theorem insertMerged_preserves_witness (acc : List Rule) (r : Rule)
    (k : CSym × List CSym) (E : List Nat)
    (h : ∃ m ∈ acc, ruleKey m = k ∧ ∀ j ∈ E, j ∈ m.history.elided) :
    ∃ m ∈ insertMerged acc r, ruleKey m = k ∧ ∀ j ∈ E, j ∈ m.history.elided := by
  induction acc with
  | nil => simp at h
  | cons a rest ih =>
      rcases h with ⟨m, hm, hkey, helide⟩
      by_cases hk : ruleKey a = ruleKey r
      · rcases List.mem_cons.mp hm with rfl | hm2
        · refine ⟨{ m with history := historyUnion m.history r.history },
            ?_, hkey, ?_⟩
          · simp [insertMerged, if_pos hk]
          · intro j hj
            simp only [historyUnion]
            exact (mem_unionPos m.history.elided r.history.elided j).mpr
              (Or.inl (helide j hj))
        · refine ⟨m, ?_, hkey, helide⟩
          simp only [insertMerged, if_pos hk]
          exact List.mem_cons_of_mem _ hm2
      · rcases List.mem_cons.mp hm with rfl | hm2
        · refine ⟨m, ?_, hkey, helide⟩
          simp [insertMerged, if_neg hk]
        · rcases ih ⟨m, hm2, hkey, helide⟩ with ⟨m2, hm2b, hkey2, helide2⟩
          refine ⟨m2, ?_, hkey2, helide2⟩
          simp only [insertMerged, if_neg hk]
          exact List.mem_cons_of_mem _ hm2b

theorem foldl_preserves_witness (k : CSym × List CSym) (E : List Nat) :
    ∀ (l acc : List Rule),
      (∃ m ∈ acc, ruleKey m = k ∧ ∀ j ∈ E, j ∈ m.history.elided) →
      ∃ m ∈ l.foldl insertMerged acc, ruleKey m = k ∧
        ∀ j ∈ E, j ∈ m.history.elided := by
  intro l
  induction l with
  | nil => intro acc h; exact h
  | cons y ys ih =>
      intro acc h
      exact ih (insertMerged acc y) (insertMerged_preserves_witness acc y k E h)

theorem mergeRules_witness :
    ∀ (l acc : List Rule) (v : Rule), v ∈ l →
      ∃ m ∈ l.foldl insertMerged acc, ruleKey m = ruleKey v ∧
        ∀ j ∈ v.history.elided, j ∈ m.history.elided := by
  intro l
  induction l with
  | nil => intro acc v hv; simp at hv
  | cons y ys ih =>
      intro acc v hv
      rcases List.mem_cons.mp hv with rfl | hv2
      · exact foldl_preserves_witness (ruleKey v) v.history.elided ys
          (insertMerged acc v) (insertMerged_self_witness acc v)
      · exact ih (insertMerged acc y) v hv2

/-- Modelled from the spec: a sequence rule expresses bounded or unbounded,
optionally separator-delimited, repetition of `item`. -/
structure SeqRule where
  lhs : CSym
  item : CSym
  min : Nat
  max : Option Nat
  separator : Option CSym
  history : History
deriving DecidableEq, Repr

/-- Tag a History as produced by sequence rewriting. -/
def seqTag (h : History) : History := { h with seqRewritten := true }

/-- `item` repeated `k` times with the separator interleaved. -/
def repRhs (item : CSym) (sep : Option CSym) : Nat → List CSym
  | 0 => []
  | 1 => [item]
  | k + 2 =>
      repRhs item sep (k + 1) ++
        (match sep with
         | none => [item]
         | some s => [s, item])

/-- Modelled from the spec: `rewrite_sequence` expands a repetition construct
into explicit productions, every output tagged as sequence-rewritten. The
deterministic encoding choices are: a finite range `min..max` unrolls into one
production per admissible length; an unbounded separator-free repetition uses
the left-recursive step `lhs -> lhs item` (with an empty base when min = 0);
an unbounded separated repetition with min = 0 introduces one fresh synthetic
symbol (from counter `c`) for the nonempty cases. `max < min` is an
`InvalidRepetitionRangeError`. -/
def rewrite_sequence (sq : SeqRule) (c : Nat) :
    Except CfgError (List Rule × Nat) :=
  match sq.max with
  | some m =>
      if m < sq.min then .error CfgError.InvalidRepetitionRangeError
      else .ok (((List.range' sq.min (m - sq.min + 1)).map
        (fun k => (⟨sq.lhs, repRhs sq.item sq.separator k,
                    seqTag sq.history⟩ : Rule))), c)
  | none =>
      match sq.min, sq.separator with
      | 0, none =>
          .ok ([⟨sq.lhs, [], seqTag sq.history⟩,
                ⟨sq.lhs, [sq.lhs, sq.item], seqTag sq.history⟩], c)
      | 0, some s =>
          .ok ([⟨sq.lhs, [], seqTag sq.history⟩,
                ⟨sq.lhs, [c], seqTag sq.history⟩,
                ⟨c, [sq.item], seqTag sq.history⟩,
                ⟨c, [c, s, sq.item], seqTag sq.history⟩], c + 1)
      | m0 + 1, none =>
          .ok ([⟨sq.lhs, repRhs sq.item none (m0 + 1), seqTag sq.history⟩,
                ⟨sq.lhs, [sq.lhs, sq.item], seqTag sq.history⟩], c)
      | m0 + 1, some s =>
          .ok ([⟨sq.lhs, repRhs sq.item (some s) (m0 + 1), seqTag sq.history⟩,
                ⟨sq.lhs, [sq.lhs, s, sq.item], seqTag sq.history⟩], c)

/-- Modelled from the spec: a grammar snapshot — plain rules, not-yet-expanded
sequence rules, and the monotone fresh-symbol allocator owned by the run. -/
structure Grammar where
  rules : List Rule
  seqs : List SeqRule
  nextSym : CSym
deriving DecidableEq, Repr

/-- Rewrite a list of sequence rules, threading the fresh-symbol counter and
propagating the first error. -/
def seqListRewrite : List SeqRule → Nat → Except CfgError (List Rule × Nat)
  | [], c => .ok ([], c)
  | sq :: rest, c =>
      match rewrite_sequence sq c with
      | .error e => .error e
      | .ok (rs, c1) =>
          match seqListRewrite rest c1 with
          | .error e => .error e
          | .ok (rs2, c2) => .ok (rs ++ rs2, c2)

/-- Modelled from the spec: the Sequence Rewriter pass — expands every
sequence rule into plain rules appended to the rule set. -/
def seqPass (g : Grammar) : Except CfgError Grammar :=
  match seqListRewrite g.seqs g.nextSym with
  | .error e => .error e
  | .ok (newRules, c) => .ok ⟨g.rules ++ newRules, [], c⟩

/-- One round of the nullability closure: add the LHS of every rule whose
whole RHS is already known nullable. -/
def nullableStepAux : List Rule → List CSym → List CSym
  | [], s => s
  | r :: rest, s =>
      nullableStepAux rest
        (if (∀ x ∈ r.rhs, x ∈ s) ∧ r.lhs ∉ s then s ++ [r.lhs] else s)

/-- Iterated nullability closure. -/
def nullableN (rules : List Rule) : Nat → List CSym
  | 0 => []
  | n + 1 => nullableStepAux rules (nullableN rules n)

/-- Modelled from the spec: the external nullability analysis — a symbol is
nullable when it can derive the empty string, computed as the least fixpoint
of the per-rule closure (reached after at most one round per rule). -/
def computeNullable (rules : List Rule) : CSym → Bool :=
  fun x => decide (x ∈ nullableN rules (rules.length + 1))

/-- Modelled from the spec: the Nulling Eliminator pass — replaces every rule
by its nulling-free elision variants; empty-RHS productions (original epsilon
rules and all-elided variants) are removed from the grammar, whose null
derivations the history retains, so the output grammar is nulling-free. -/
def nullPass (g : Grammar) : Except CfgError Grammar :=
  .ok ⟨concatMap
        (fun r => (eliminate_nulling r (computeNullable g.rules)).filter
          (fun r2 => !(r2.rhs.isEmpty)))
        g.rules,
      g.seqs, g.nextSym⟩

/-- Binarize every rule, threading the fresh-symbol counter. -/
def binarizeAll : List Rule → Nat → List Rule × Nat
  | [], c => ([], c)
  | r :: rest, c =>
      ((binarize r c).1 ++ (binarizeAll rest (binarize r c).2).1,
       (binarizeAll rest (binarize r c).2).2)

/-- Modelled from the spec: the Binarizer pass. -/
def binPass (g : Grammar) : Except CfgError Grammar :=
  .ok ⟨(binarizeAll g.rules g.nextSym).1, g.seqs,
       (binarizeAll g.rules g.nextSym).2⟩

/-- Modelled from the spec: the Precedence Assigner pass. Conflicting
precedences are rejected eagerly by `assign_precedence` at authoring time and
derived rules inherit the precedence payload through their History, so the
pass consults the final rule identities and returns the grammar as the
complete replacement. -/
def precPass (g : Grammar) : Except CfgError Grammar := .ok g

/-- Modelled from the spec: the full normalization pipeline
Sequence Rewriter then Nulling Eliminator then Binarizer then
Precedence Assigner. -/
def pipeline (g : Grammar) : Except CfgError Grammar :=
  match seqPass g with
  | .error e => .error e
  | .ok g1 =>
      match nullPass g1 with
      | .error e => .error e
      | .ok g2 =>
          match binPass g2 with
          | .error e => .error e
          | .ok g3 => precPass g3

/-- Modelled from the spec: run one pass atomically over the current grammar
snapshot — on success the result is the complete replacement grammar, on
error the pre-pass grammar is kept and the error is reported to the caller. -/
def applyPass (p : Grammar → Except CfgError Grammar) (g : Grammar) :
    Grammar × Option CfgError :=
  match p g with
  | .ok g2 => (g2, none)
  | .error e => (g, some e)

-- Helper lemmas for pipeline idempotence.

theorem mem_concatMap {α β : Type} (f : α → List β) :
    ∀ (l : List α) (y : β), y ∈ concatMap f l ↔ ∃ x ∈ l, y ∈ f x := by
  intro l
  induction l with
  | nil => intro y; simp [concatMap]
  | cons x xs ih =>
      intro y
      simp [concatMap, ih y, List.mem_append]

theorem concatMap_id {α : Type} (f : α → List α) :
    ∀ l : List α, (∀ x ∈ l, f x = [x]) → concatMap f l = l := by
  intro l
  induction l with
  | nil => intro _; rfl
  | cons x xs ih =>
      intro h
      simp only [concatMap, h x (List.mem_cons_self _ _)]
      rw [ih (fun y hy => h y (List.mem_cons_of_mem _ hy))]
      rfl

theorem binarize_short (r : Rule) (c : Nat) (h : r.rhs.length ≤ 2) :
    binarize r c = ([r], c) := by
  cases hr : r.rhs with
  | nil => simp [binarize, hr]
  | cons s0 t0 =>
      cases t0 with
      | nil => simp [binarize, hr]
      | cons s1 t1 =>
          cases t1 with
          | nil => simp [binarize, hr]
          | cons s2 t2 => rw [hr] at h; simp at h

theorem binarize_rhs_bound (r : Rule) (c : Nat) :
    ∀ x ∈ (binarize r c).1, x.rhs.length ≤ 2 ∧ (r.rhs ≠ [] → x.rhs ≠ []) := by
  intro x hx
  cases hr : r.rhs with
  | nil =>
      simp only [binarize, hr, List.mem_singleton] at hx
      subst hx
      exact ⟨by rw [hr]; simp, fun hne => (hne rfl).elim⟩
  | cons s0 t0 =>
      cases t0 with
      | nil =>
          simp only [binarize, hr, List.mem_singleton] at hx
          subst hx
          constructor
          · rw [hr]; simp
          · intro _; rw [hr]; simp
      | cons s1 t1 =>
          cases t1 with
          | nil =>
              simp only [binarize, hr, List.mem_singleton] at hx
              subst hx
              constructor
              · rw [hr]; simp
              · intro _; rw [hr]; simp
          | cons s2 t2 =>
              simp only [binarize, hr, List.mem_cons] at hx
              rcases hx with rfl | hx2
              · exact ⟨by simp, fun _ => by simp⟩
              · rcases binChain_mem r.lhs r.history t2 s2 c (c + 1) x hx2
                  with ⟨hlen, _⟩
                constructor
                · omega
                · intro _
                  intro hnil
                  rw [hnil] at hlen
                  simp at hlen

theorem binarizeAll_short :
    ∀ (rules : List Rule) (c : Nat), (∀ r ∈ rules, r.rhs.length ≤ 2) →
      binarizeAll rules c = (rules, c) := by
  intro rules
  induction rules with
  | nil => intro c _; rfl
  | cons r rest ih =>
      intro c h
      have h1 : binarize r c = ([r], c) :=
        binarize_short r c (h r (List.mem_cons_self _ _))
      simp only [binarizeAll, h1]
      rw [ih c (fun y hy => h y (List.mem_cons_of_mem _ hy))]
      rfl

theorem binarizeAll_rhs_bound :
    ∀ (rules : List Rule) (c : Nat), (∀ r ∈ rules, r.rhs ≠ []) →
      ∀ x ∈ (binarizeAll rules c).1, x.rhs.length ≤ 2 ∧ x.rhs ≠ [] := by
  intro rules
  induction rules with
  | nil => intro c _ x hx; simp [binarizeAll] at hx
  | cons r rest ih =>
      intro c h x hx
      simp only [binarizeAll, List.mem_append] at hx
      rcases hx with hx | hx
      · rcases binarize_rhs_bound r c x hx with ⟨hlen, hne⟩
        exact ⟨hlen, hne (h r (List.mem_cons_self _ _))⟩
      · exact ih (binarize r c).2 (fun y hy => h y (List.mem_cons_of_mem _ hy)) x hx

theorem nullableStepAux_nil :
    ∀ rules : List Rule, (∀ r ∈ rules, r.rhs ≠ []) →
      nullableStepAux rules [] = [] := by
  intro rules
  induction rules with
  | nil => intro _; rfl
  | cons r rest ih =>
      intro h
      have hne : r.rhs ≠ [] := h r (List.mem_cons_self _ _)
      have hcond : ¬((∀ x ∈ r.rhs, x ∈ ([] : List CSym)) ∧
          r.lhs ∉ ([] : List CSym)) := by
        rintro ⟨hall, -⟩
        cases hr : r.rhs with
        | nil => exact hne hr
        | cons y ys =>
            have := hall y (by rw [hr]; exact List.mem_cons_self _ _)
            simp at this
      simp only [nullableStepAux, if_neg hcond]
      exact ih (fun y hy => h y (List.mem_cons_of_mem _ hy))

theorem nullableN_nil (rules : List Rule) (h : ∀ r ∈ rules, r.rhs ≠ []) :
    ∀ n, nullableN rules n = [] := by
  intro n
  induction n with
  | zero => rfl
  | succ n ih =>
      simp only [nullableN, ih]
      exact nullableStepAux_nil rules h

theorem computeNullable_false (rules : List Rule)
    (h : ∀ r ∈ rules, r.rhs ≠ []) :
    ∀ x, computeNullable rules x = false := by
  intro x
  simp [computeNullable, nullableN_nil rules h]

theorem eliminate_nulling_id (r : Rule) (nbl : CSym → Bool)
    (h : ∀ x, nbl x = false) : eliminate_nulling r nbl = [r] := by
  have hP : nullablePositions nbl r.rhs = [] :=
    nullablePositionsAux_false nbl h r.rhs 0
  simp only [eliminate_nulling, hP, List.sublists_nil, List.map_cons,
    List.map_nil, elideVariant_nil]
  rfl

theorem nullablePositionsAux_false_on (nbl : CSym → Bool) :
    ∀ rhs : List CSym, (∀ x ∈ rhs, nbl x = false) →
      ∀ i, nullablePositionsAux nbl rhs i = [] := by
  intro rhs
  induction rhs with
  | nil => intro _ i; rfl
  | cons x xs ih =>
      intro hnbl i
      simp [nullablePositionsAux, hnbl x (List.mem_cons_self x xs),
        ih (fun y hy => hnbl y (List.mem_cons_of_mem x hy)) (i + 1)]

theorem eliminate_nulling_id_on (r : Rule) (nbl : CSym → Bool)
    (h : ∀ x ∈ r.rhs, nbl x = false) : eliminate_nulling r nbl = [r] := by
  have hP : nullablePositions nbl r.rhs = [] :=
    nullablePositionsAux_false_on nbl r.rhs h 0
  simp only [eliminate_nulling, hP, List.sublists_nil, List.map_cons,
    List.map_nil, elideVariant_nil]
  rfl

theorem grammar_eta (g : Grammar) :
    (⟨g.rules, g.seqs, g.nextSym⟩ : Grammar) = g := by
  cases g
  rfl

theorem seqPass_seqs_nil (g g2 : Grammar) (h : seqPass g = .ok g2) :
    g2.seqs = [] := by
  unfold seqPass at h
  cases hsl : seqListRewrite g.seqs g.nextSym with
  | error e => rw [hsl] at h; cases h
  | ok p =>
      obtain ⟨rs, c⟩ := p
      rw [hsl] at h
      simp only [Except.ok.injEq] at h
      rw [← h]

theorem seqPass_id (g : Grammar) (h : g.seqs = []) : seqPass g = .ok g := by
  unfold seqPass
  rw [h]
  simp only [seqListRewrite, List.append_nil]
  rw [← h]

theorem nullPass_seqs (g g2 : Grammar) (h : nullPass g = .ok g2) :
    g2.seqs = g.seqs ∧ g2.nextSym = g.nextSym := by
  simp only [nullPass, Except.ok.injEq] at h
  rw [← h]
  exact ⟨rfl, rfl⟩

theorem nullPass_rules_nonempty (g g2 : Grammar) (h : nullPass g = .ok g2) :
    ∀ r ∈ g2.rules, r.rhs ≠ [] := by
  simp only [nullPass, Except.ok.injEq] at h
  intro r hr
  rw [← h] at hr
  simp only at hr
  rw [mem_concatMap] at hr
  obtain ⟨x, _, hrx⟩ := hr
  rw [List.mem_filter] at hrx
  intro hnil
  rw [hnil] at hrx
  simp [List.isEmpty] at hrx

theorem nullPass_id (g : Grammar) (h : ∀ r ∈ g.rules, r.rhs ≠ []) :
    nullPass g = .ok g := by
  have hnbl := computeNullable_false g.rules h
  unfold nullPass
  have heach : ∀ r ∈ g.rules,
      (eliminate_nulling r (computeNullable g.rules)).filter
        (fun r2 => !(r2.rhs.isEmpty)) = [r] := by
    intro r hr
    rw [eliminate_nulling_id r _ hnbl]
    have hne : (!(r.rhs.isEmpty)) = true := by
      cases hrr : r.rhs with
      | nil => exact absurd hrr (h r hr)
      | cons a l => simp [hrr]
    simp [List.filter, hne]
  rw [concatMap_id _ g.rules heach]

theorem binPass_id (g : Grammar) (h : ∀ r ∈ g.rules, r.rhs.length ≤ 2) :
    binPass g = .ok g := by
  unfold binPass
  rw [binarizeAll_short g.rules g.nextSym h]

theorem binPass_out (g g2 : Grammar) (h : binPass g = .ok g2)
    (hne : ∀ r ∈ g.rules, r.rhs ≠ []) :
    g2.seqs = g.seqs ∧ ∀ x ∈ g2.rules, x.rhs.length ≤ 2 ∧ x.rhs ≠ [] := by
  simp only [binPass, Except.ok.injEq] at h
  constructor
  · rw [← h]
  · intro x hx
    rw [← h] at hx
    exact binarizeAll_rhs_bound g.rules g.nextSym hne x hx

theorem pipeline_normal_form (g h : Grammar) (hp : pipeline g = .ok h) :
    h.seqs = [] ∧ ∀ x ∈ h.rules, x.rhs.length ≤ 2 ∧ x.rhs ≠ [] := by
  unfold pipeline at hp
  cases hsp : seqPass g with
  | error e => rw [hsp] at hp; cases hp
  | ok g1 =>
      rw [hsp] at hp
      dsimp only at hp
      cases hnp : nullPass g1 with
      | error e => rw [hnp] at hp; cases hp
      | ok g2 =>
          rw [hnp] at hp
          dsimp only at hp
          cases hbp : binPass g2 with
          | error e => rw [hbp] at hp; cases hp
          | ok g3 =>
              rw [hbp] at hp
              dsimp only at hp
              simp only [precPass, Except.ok.injEq] at hp
              subst hp
              have h1 : g1.seqs = [] := seqPass_seqs_nil g g1 hsp
              have h2 : g2.seqs = [] := by
                rw [(nullPass_seqs g1 g2 hnp).1, h1]
              have h2r : ∀ r ∈ g2.rules, r.rhs ≠ [] :=
                nullPass_rules_nonempty g1 g2 hnp
              rcases binPass_out g2 g3 hbp h2r with ⟨h3s, h3r⟩
              exact ⟨by rw [h3s, h2], h3r⟩

theorem pipeline_fixed (h2 : Grammar) (hseqs : h2.seqs = [])
    (hrules : ∀ x ∈ h2.rules, x.rhs.length ≤ 2 ∧ x.rhs ≠ []) :
    pipeline h2 = .ok h2 := by
  unfold pipeline
  rw [seqPass_id h2 hseqs]
  dsimp only
  rw [nullPass_id h2 (fun r hr => (hrules r hr).2)]
  dsimp only
  rw [binPass_id h2 (fun r hr => (hrules r hr).1)]
  rfl

-- Helper lemmas about action preservation.

theorem binarize_action (r : Rule) (c : Nat) :
    ∀ x ∈ (binarize r c).1, x.history.action = r.history.action := by
  intro x hx
  cases hr : r.rhs with
  | nil =>
      simp only [binarize, hr, List.mem_singleton] at hx
      subst hx; rfl
  | cons s0 t0 =>
      cases t0 with
      | nil =>
          simp only [binarize, hr, List.mem_singleton] at hx
          subst hx; rfl
      | cons s1 t1 =>
          cases t1 with
          | nil =>
              simp only [binarize, hr, List.mem_singleton] at hx
              subst hx; rfl
          | cons s2 t2 =>
              simp only [binarize, hr, List.mem_cons] at hx
              rcases hx with rfl | hx2
              · rfl
              · rw [(binChain_mem r.lhs r.history t2 s2 c (c + 1) x hx2).2]

theorem eliminate_nulling_action (r : Rule) (nbl : CSym → Bool) :
    ∀ x ∈ eliminate_nulling r nbl, x.history.action = r.history.action := by
  intro x hx
  refine mergeRules_foldl_action r.history.action
    (((nullablePositions nbl r.rhs).sublists).map (elideVariant r)) [] ?_
    (by intro y hy; simp at hy) x hx
  intro y hy
  rcases List.mem_map.mp hy with ⟨S, _, rfl⟩
  rfl

theorem rewrite_sequence_history (sq : SeqRule) (c : Nat) (rs : List Rule)
    (c2 : Nat) (h : rewrite_sequence sq c = .ok (rs, c2)) :
    ∀ x ∈ rs, x.history = seqTag sq.history := by
  intro x hx
  unfold rewrite_sequence at h
  cases hmax : sq.max with
  | some m =>
      rw [hmax] at h
      dsimp only at h
      by_cases hlt : m < sq.min
      · rw [if_pos hlt] at h; cases h
      · rw [if_neg hlt] at h
        simp only [Except.ok.injEq, Prod.mk.injEq] at h
        rw [← h.1] at hx
        rcases List.mem_map.mp hx with ⟨k, _, rfl⟩
        rfl
  | none =>
      rw [hmax] at h
      dsimp only at h
      cases hmin : sq.min with
      | zero =>
          rw [hmin] at h
          cases hsep : sq.separator with
          | none =>
              rw [hsep] at h
              dsimp only at h
              simp only [Except.ok.injEq, Prod.mk.injEq] at h
              rw [← h.1] at hx
              simp only [List.mem_cons, List.not_mem_nil, or_false] at hx
              rcases hx with rfl | rfl
              · rfl
              · rfl
          | some s =>
              rw [hsep] at h
              dsimp only at h
              simp only [Except.ok.injEq, Prod.mk.injEq] at h
              rw [← h.1] at hx
              simp only [List.mem_cons, List.not_mem_nil, or_false] at hx
              rcases hx with rfl | rfl | rfl | rfl
              · rfl
              · rfl
              · rfl
              · rfl
      | succ m0 =>
          rw [hmin] at h
          cases hsep : sq.separator with
          | none =>
              rw [hsep] at h
              dsimp only at h
              simp only [Except.ok.injEq, Prod.mk.injEq] at h
              rw [← h.1] at hx
              simp only [List.mem_cons, List.not_mem_nil, or_false] at hx
              rcases hx with rfl | rfl
              · rfl
              · rfl
          | some s =>
              rw [hsep] at h
              dsimp only at h
              simp only [Except.ok.injEq, Prod.mk.injEq] at h
              rw [← h.1] at hx
              simp only [List.mem_cons, List.not_mem_nil, or_false] at hx
              rcases hx with rfl | rfl
              · rfl
              · rfl

/-- C1: for every rule whose RHS has length n > 2, binarize produces exactly
n-1 binary rules forming a chain in which the final rule's LHS equals the
original rule's LHS, every intermediate rule's LHS is a freshly allocated
synthetic nonterminal (the consecutive counter values c, c+1, ...), and
reading the chain's leaves via their BinarizedRhsSubset tags reconstructs the
original RHS in its original order; for RHS length 0, 1 or 2 binarize returns
the input rule unchanged (length 0 or 1 tagged BinarizedRhsSubset.None). -/
theorem claim_C1_binarize_chain :
    (∀ (r : Rule) (c : Nat), 2 < r.rhs.length →
        (binarize r c).1.length = r.rhs.length - 1 ∧
        (binarize r c).1.map (fun x => x.lhs) =
          List.range' c (r.rhs.length - 2) ++ [r.lhs] ∧
        (∀ x ∈ (binarize r c).1, x.rhs.length = 2) ∧
        List.Chain' chainLink (binarize r c).1 ∧
        leavesRead (binarize r c).1 = r.rhs) ∧
    (∀ (r : Rule) (c : Nat), r.rhs.length ≤ 2 → binarize r c = ([r], c)) ∧
    (∀ (r : Rule) (c : Nat), r.rhs.length ≤ 1 →
        r.history.binarized = BinarizedRhsSubset.None →
        (binarize r c).1 = [r] ∧
        ∀ x ∈ (binarize r c).1,
          x.history.binarized = BinarizedRhsSubset.None) := by
  refine ⟨?_, ?_, ?_⟩
  · intro r c hlen
    obtain ⟨lhs, rhs, hist⟩ := r
    cases rhs with
    | nil => simp at hlen
    | cons s0 t0 =>
        cases t0 with
        | nil => simp at hlen
        | cons s1 t1 =>
            cases t1 with
            | nil => simp at hlen
            | cons s2 rest =>
                refine ⟨?_, ?_, ?_, ?_, ?_⟩
                · simp only [binarize, List.length_cons,
                    binChain_length lhs hist rest s2 c (c + 1)]
                  omega
                · simp only [binarize, List.map_cons,
                    binChain_lhs_map lhs hist rest s2 c (c + 1),
                    List.length_cons]
                  have hL : rest.length + 1 + 1 + 1 - 2 = rest.length + 1 := by
                    omega
                  rw [hL, List.range'_succ c rest.length 1]
                  rfl
                · intro x hx
                  simp only [binarize, List.mem_cons] at hx
                  rcases hx with rfl | hx2
                  · rfl
                  · exact (binChain_mem lhs hist rest s2 c (c + 1) x hx2).1
                · simp only [binarize]
                  rw [List.chain'_cons']
                  constructor
                  · intro b hb
                    have hh := binChain_head lhs hist rest s2 c (c + 1)
                    cases hL : (binChain lhs hist c (s2 :: rest) (c + 1)).1 with
                    | nil => rw [hL] at hb; simp at hb
                    | cons b0 bs =>
                        rw [hL] at hb hh
                        simp only [List.head?, Option.mem_def,
                          Option.some.injEq] at hb
                        subst hb
                        simp only [List.head?, Option.bind] at hh
                        exact hh
                  · exact binChain_chain lhs hist rest s2 c (c + 1)
                · simp only [binarize, leavesRead, concatMap]
                  have hh := binChain_leaves lhs hist rest s2 c (c + 1)
                  simp only [leavesRead] at hh
                  rw [hh]
                  rfl
  · exact binarize_short
  · intro r c hlen htag
    have hout : binarize r c = ([r], c) := binarize_short r c (by omega)
    refine ⟨by rw [hout], ?_⟩
    intro x hx
    rw [hout] at hx
    simp only [List.mem_singleton] at hx
    subst hx
    exact htag

/-- Witness for C1 at the concrete rule 0 -> [1,2,3,4] with counter 10 and at
the already-binary rule 0 -> [1,2]. -/
theorem claim_C1_binarize_chain_witness :
    (binarize ⟨0, [1, 2, 3, 4], NullHistory⟩ 10).1.length = 3 ∧
    leavesRead (binarize ⟨0, [1, 2, 3, 4], NullHistory⟩ 10).1 = [1, 2, 3, 4] ∧
    binarize ⟨0, [1, 2], NullHistory⟩ 10 = ([⟨0, [1, 2], NullHistory⟩], 10) := by
  refine ⟨?_, ?_, ?_⟩
  · exact (claim_C1_binarize_chain.1 ⟨0, [1, 2, 3, 4], NullHistory⟩ 10
      (by decide)).1
  · exact (claim_C1_binarize_chain.1 ⟨0, [1, 2, 3, 4], NullHistory⟩ 10
      (by decide)).2.2.2.2
  · exact claim_C1_binarize_chain.2.1 ⟨0, [1, 2], NullHistory⟩ 10 (by decide)

/-- C2: for every rule whose RHS has nullable-position set P of size k,
eliminate_nulling produces exactly one variant per retained subset of P
(2 ^ k variants before merging), each tagged with the original positions that
were elided; the empty-RHS variant arises only if the whole RHS is nullable
(and does arise when it is); eliding every nullable position leaves a
nulling-free RHS and elided positions never survive; and variants that become
syntactically identical are merged — the merged output has no duplicate
productions and every variant is represented with its elision facts
unioned in. -/
theorem claim_C2_eliminate_nulling :
    ∀ (r : Rule) (nbl : CSym → Bool),
      (((nullablePositions nbl r.rhs).sublists.map (elideVariant r)).length =
          2 ^ (nullablePositions nbl r.rhs).length) ∧
      (eliminate_nulling r nbl =
        mergeRules ((nullablePositions nbl r.rhs).sublists.map
          (elideVariant r))) ∧
      (∀ S ∈ (nullablePositions nbl r.rhs).sublists,
          (elideVariant r S).rhs = elideRhs r.rhs S ∧
          (elideVariant r S).history.elided = unionPos r.history.elided S ∧
          (∀ j ∈ retainedPositions r.rhs S, j ∉ S) ∧
          ((elideVariant r S).rhs = [] → ∀ x ∈ r.rhs, nbl x = true)) ∧
      ((∀ x ∈ r.rhs, nbl x = true) →
          (elideVariant r (nullablePositions nbl r.rhs)).rhs = []) ∧
      (∀ x ∈ elideRhs r.rhs (nullablePositions nbl r.rhs), nbl x = false) ∧
      (((eliminate_nulling r nbl).map ruleKey).Nodup) ∧
      (∀ S ∈ (nullablePositions nbl r.rhs).sublists,
          ∃ m ∈ eliminate_nulling r nbl,
            ruleKey m = ruleKey (elideVariant r S) ∧
            ∀ j ∈ (elideVariant r S).history.elided,
              j ∈ m.history.elided) := by
  intro r nbl
  refine ⟨?_, rfl, ?_, ?_, ?_, ?_, ?_⟩
  · rw [List.length_map, List.length_sublists]
  · intro S hS
    refine ⟨rfl, rfl, retainedPositionsAux_not_elided r.rhs 0 S, ?_⟩
    intro hE
    refine elideRhsAux_empty_all_nullable nbl r.rhs 0 S ?_ hE
    intro j hj _
    exact (List.mem_sublists.mp hS).subset hj
  · intro hall
    exact elideRhsAux_all_nullable nbl r.rhs hall 0 _
      (fun j h1 h2 => nullablePositionsAux_ub nbl r.rhs hall 0 j h1 h2)
  · exact elideRhsAux_nulling_free nbl r.rhs 0 _ (fun j hj => hj)
  · exact mergeRules_keys_nodup _
  · intro S hS
    exact mergeRules_witness _ [] (elideVariant r S)
      (List.mem_map_of_mem _ hS)

/-- Witness for C2 at the concrete rule 5 -> [1,1] with symbol 1 nullable:
four variants (one per subset of the two nullable positions), an empty
all-elided RHS, and a duplicate-free merged output. -/
theorem claim_C2_witness :
    ((nullablePositions (fun x => decide (x = 1)) [1, 1]).sublists.map
        (elideVariant ⟨5, [1, 1], NullHistory⟩)).length = 2 ^ 2 ∧
    (elideVariant ⟨5, [1, 1], NullHistory⟩
        (nullablePositions (fun x => decide (x = 1)) [1, 1])).rhs = [] ∧
    ((eliminate_nulling ⟨5, [1, 1], NullHistory⟩
        (fun x => decide (x = 1))).map ruleKey).Nodup := by
  refine ⟨?_, ?_, ?_⟩
  · exact (claim_C2_eliminate_nulling ⟨5, [1, 1], NullHistory⟩
      (fun x => decide (x = 1))).1
  · exact (claim_C2_eliminate_nulling ⟨5, [1, 1], NullHistory⟩
      (fun x => decide (x = 1))).2.2.2.1 (by decide)
  · exact (claim_C2_eliminate_nulling ⟨5, [1, 1], NullHistory⟩
      (fun x => decide (x = 1))).2.2.2.2.2.1

/-- C3: every rewrite operation preserves the assigned ActionId — all rules
derived by sequence rewriting, nulling elimination or binarization report the
original rule's action via get_action, and the precedence pass returns every
rule unchanged. -/
theorem claim_C3_action_preserved :
    (∀ (sq : SeqRule) (c : Nat) (rs : List Rule) (c2 : Nat),
        rewrite_sequence sq c = .ok (rs, c2) →
        ∀ x ∈ rs, get_action x.history = get_action sq.history) ∧
    (∀ (r : Rule) (nbl : CSym → Bool),
        ∀ x ∈ eliminate_nulling r nbl,
          get_action x.history = get_action r.history) ∧
    (∀ (r : Rule) (c : Nat),
        ∀ x ∈ (binarize r c).1,
          get_action x.history = get_action r.history) ∧
    (∀ g : Grammar, precPass g = .ok g) := by
  refine ⟨?_, ?_, ?_, fun g => rfl⟩
  · intro sq c rs c2 h x hx
    rw [show x.history = seqTag sq.history from
      rewrite_sequence_history sq c rs c2 h x hx]
    rfl
  · intro r nbl x hx
    exact eliminate_nulling_action r nbl x hx
  · intro r c x hx
    exact binarize_action r c x hx

/-- Witness for C3: the first binary rule derived from the three-symbol rule
0 -> [1,2,3] carrying action 7 still reports action 7. -/
theorem claim_C3_witness :
    get_action (Rule.mk 10 [1, 2]
      ⟨some 7, none, [], BinarizedRhsSubset.Left, false⟩).history =
      get_action (⟨some 7, none, [], BinarizedRhsSubset.None, false⟩ :
        History) :=
  claim_C3_action_preserved.2.2.1
    ⟨0, [1, 2, 3], ⟨some 7, none, [], BinarizedRhsSubset.None, false⟩⟩ 10
    (Rule.mk 10 [1, 2] ⟨some 7, none, [], BinarizedRhsSubset.Left, false⟩)
    (by decide)

/-- C4 counterexample: binarize does not return a NullHistory rule unchanged
in a single-element result once the RHS is longer than two symbols — the
structural rewrite splits the rule regardless of its history. -/
theorem claim_C4_counterexample :
    (binarize ⟨0, [1, 2, 3], NullHistory⟩ 10).1 ≠
      [⟨0, [1, 2, 3], NullHistory⟩] := by decide

/-- C4 (amended): for every rule whose history is NullHistory, get_action and
get_precedence return none; binarize returns the input rule unchanged in a
single-element result whenever the RHS length is at most 2, and
eliminate_nulling does so whenever no symbol of the RHS is nullable; the
structural rewrites are driven by the rule's shape rather than its history,
so NullHistory is an identity for the query capabilities while recording no
data. -/
theorem claim_C4_nullhistory_amended :
    get_action NullHistory = none ∧
    get_precedence NullHistory = none ∧
    (∀ (r : Rule) (c : Nat), r.history = NullHistory → r.rhs.length ≤ 2 →
        binarize r c = ([r], c)) ∧
    (∀ (r : Rule) (nbl : CSym → Bool), r.history = NullHistory →
        (∀ x ∈ r.rhs, nbl x = false) → eliminate_nulling r nbl = [r]) := by
  refine ⟨rfl, rfl, ?_, ?_⟩
  · intro r c _ hlen
    exact binarize_short r c hlen
  · intro r nbl _ hnbl
    exact eliminate_nulling_id_on r nbl hnbl

/-- Witness for C4 (amended) at the binary rule 0 -> [1,2] with NullHistory,
and at the rule 0 -> [2,3] under a nullability oracle that does hold of the
(absent) symbol 1 — no symbol of the RHS is nullable, so the rule is kept
unchanged. -/
theorem claim_C4_witness :
    binarize ⟨0, [1, 2], NullHistory⟩ 10 = ([⟨0, [1, 2], NullHistory⟩], 10) ∧
    eliminate_nulling ⟨0, [2, 3], NullHistory⟩ (fun x => decide (x = 1)) =
      [⟨0, [2, 3], NullHistory⟩] :=
  ⟨claim_C4_nullhistory_amended.2.2.1 ⟨0, [1, 2], NullHistory⟩ 10 rfl
      (by decide),
   claim_C4_nullhistory_amended.2.2.2 ⟨0, [2, 3], NullHistory⟩
      (fun x => decide (x = 1)) rfl (by decide)⟩

/-- C6: every pass is atomic — run through applyPass, an error leaves the
grammar exactly in its pre-pass state, and success returns the complete
replacement grammar produced by the pass. -/
theorem claim_C6_pass_atomicity :
    ∀ (p : Grammar → Except CfgError Grammar) (g : Grammar),
      (∀ e, (applyPass p g).2 = some e → (applyPass p g).1 = g) ∧
      ((applyPass p g).2 = none → p g = .ok (applyPass p g).1) := by
  intro p g
  cases hp : p g with
  | ok g2 =>
      refine ⟨?_, ?_⟩ <;> simp [applyPass, hp]
  | error e =>
      refine ⟨?_, ?_⟩ <;> simp [applyPass, hp]

/-- Witness for C6: the sequence pass rejects a repetition with max < min and
the grammar is kept at its pre-pass state. -/
theorem claim_C6_witness :
    (applyPass seqPass
        ⟨[], [⟨0, 1, 5, some 2, none, NullHistory⟩], 10⟩).2 =
      some CfgError.InvalidRepetitionRangeError ∧
    (applyPass seqPass
        ⟨[], [⟨0, 1, 5, some 2, none, NullHistory⟩], 10⟩).1 =
      ⟨[], [⟨0, 1, 5, some 2, none, NullHistory⟩], 10⟩ :=
  ⟨by decide,
   (claim_C6_pass_atomicity seqPass
      ⟨[], [⟨0, 1, 5, some 2, none, NullHistory⟩], 10⟩).1
      CfgError.InvalidRepetitionRangeError (by decide)⟩

/-- C7: the full normalization pipeline is idempotent — re-running it on any
grammar it has produced (a grammar in the Normalized state) yields that
grammar again, structurally equal. -/
theorem claim_C7_pipeline_idempotent (g h2 : Grammar)
    (hp : pipeline g = .ok h2) : pipeline h2 = .ok h2 := by
  rcases pipeline_normal_form g h2 hp with ⟨hs, hr⟩
  exact pipeline_fixed h2 hs hr

/-- Witness for C7: the normalized form of the grammar with single rule
0 -> [1,2,3] is a fixed point of the pipeline. -/
theorem claim_C7_witness :
    pipeline
      ⟨[⟨4, [1, 2], ⟨none, none, [], BinarizedRhsSubset.Left, false⟩⟩,
        ⟨0, [4, 3], ⟨none, none, [], BinarizedRhsSubset.Right, false⟩⟩],
       [], 5⟩ =
    .ok
      ⟨[⟨4, [1, 2], ⟨none, none, [], BinarizedRhsSubset.Left, false⟩⟩,
        ⟨0, [4, 3], ⟨none, none, [], BinarizedRhsSubset.Right, false⟩⟩],
       [], 5⟩ :=
  claim_C7_pipeline_idempotent ⟨[⟨0, [1, 2, 3], NullHistory⟩], [], 4⟩ _ rfl

/-- C8: assigning a precedence different from the one a rule already carries
fails with PrecedenceConflictError rather than overwriting; in particular
assigning (1, Left) and then (2, Left) yields the error. -/
theorem claim_C8_precedence_conflict :
    (∀ (h : History) (p : Nat × Associativity) (lvl : Nat)
        (a : Associativity), h.precedence = some p → p ≠ (lvl, a) →
        assign_precedence h lvl a =
          .error CfgError.PrecedenceConflictError) ∧
    (∀ (h h1 : History), h.precedence = none →
        assign_precedence h 1 Associativity.Left = .ok h1 →
        assign_precedence h1 2 Associativity.Left =
          .error CfgError.PrecedenceConflictError) := by
  constructor
  · intro h p lvl a hp hne
    unfold assign_precedence
    rw [hp]
    dsimp only
    rw [if_neg hne]
  · intro h h1 hn hset
    unfold assign_precedence at hset
    rw [hn] at hset
    dsimp only at hset
    simp only [Except.ok.injEq] at hset
    subst hset
    unfold assign_precedence
    dsimp only
    rw [if_neg (by decide)]

/-- Witness for C8: setting precedence (2, Left) on a history already holding
(1, Left) is a conflict. -/
theorem claim_C8_witness :
    assign_precedence
        ⟨none, some (1, Associativity.Left), [], BinarizedRhsSubset.None,
         false⟩ 2 Associativity.Left =
      .error CfgError.PrecedenceConflictError :=
  claim_C8_precedence_conflict.2 NullHistory
    ⟨none, some (1, Associativity.Left), [], BinarizedRhsSubset.None, false⟩
    rfl rfl

/-- C9: set_action may be applied at most once — re-setting the same ActionId
succeeds idempotently, re-setting a different one fails with
DuplicateActionError. -/
theorem claim_C9_duplicate_action :
    ∀ (h : History) (a b : Nat) (h1 : History),
      set_action h a = .ok h1 →
      set_action h1 a = .ok h1 ∧
      (b ≠ a → set_action h1 b = .error CfgError.DuplicateActionError) := by
  intro h a b h1 hset
  unfold set_action at hset
  cases hact : h.action with
  | none =>
      rw [hact] at hset
      dsimp only at hset
      simp only [Except.ok.injEq] at hset
      subst hset
      constructor
      · unfold set_action
        dsimp only
        rw [if_pos rfl]
      · intro hne
        unfold set_action
        dsimp only
        rw [if_neg (fun hc => hne hc.symm)]
  | some b0 =>
      rw [hact] at hset
      dsimp only at hset
      by_cases hba : b0 = a
      · rw [if_pos hba] at hset
        simp only [Except.ok.injEq] at hset
        subst hset
        subst hba
        constructor
        · unfold set_action
          rw [hact]
          dsimp only
          rw [if_pos rfl]
        · intro hne
          unfold set_action
          rw [hact]
          dsimp only
          rw [if_neg (fun hc => hne hc.symm)]
      · rw [if_neg hba] at hset
        cases hset

/-- Witness for C9: after setting action 3 on a fresh history, setting 3
again is an idempotent success and setting 4 is a duplicate-action error. -/
theorem claim_C9_witness :
    set_action ⟨some 3, none, [], BinarizedRhsSubset.None, false⟩ 3 =
      .ok ⟨some 3, none, [], BinarizedRhsSubset.None, false⟩ ∧
    set_action ⟨some 3, none, [], BinarizedRhsSubset.None, false⟩ 4 =
      .error CfgError.DuplicateActionError := by
  have hh := claim_C9_duplicate_action NullHistory 3 4
    ⟨some 3, none, [], BinarizedRhsSubset.None, false⟩ rfl
  exact ⟨hh.1, hh.2 (by decide)⟩

/-- C10: a sequence rule with min = 0 and unbounded max rewrites to a
nullable base rule and a recursive step rule, every output tagged as
sequence-rewritten, with a deterministic encoding; in the separator-free case
the output is exactly the base rule lhs -> [] and the left-recursive step
lhs -> [lhs, item]. -/
theorem claim_C10_kleene_star :
    ∀ (sq : SeqRule) (c : Nat), sq.min = 0 → sq.max = none →
      (∀ (rs : List Rule) (c2 : Nat), rewrite_sequence sq c = .ok (rs, c2) →
          rs.head? = some ⟨sq.lhs, [], seqTag sq.history⟩ ∧
          (∀ x ∈ rs, x.history.seqRewritten = true) ∧
          ∃ x ∈ rs, 1 < x.rhs.length ∧ x.rhs.head? = some x.lhs) ∧
      (sq.separator = none →
          rewrite_sequence sq c =
            .ok ([⟨sq.lhs, [], seqTag sq.history⟩,
                  ⟨sq.lhs, [sq.lhs, sq.item], seqTag sq.history⟩], c)) := by
  intro sq c hmin hmax
  constructor
  · intro rs c2 h
    have htag : ∀ x ∈ rs, x.history.seqRewritten = true := by
      intro x hx
      rw [rewrite_sequence_history sq c rs c2 h x hx]
      rfl
    unfold rewrite_sequence at h
    rw [hmax] at h
    dsimp only at h
    rw [hmin] at h
    cases hsep : sq.separator with
    | none =>
        rw [hsep] at h
        dsimp only at h
        simp only [Except.ok.injEq, Prod.mk.injEq] at h
        refine ⟨?_, htag, ?_⟩
        · rw [← h.1]
          rfl
        · rw [← h.1]
          refine ⟨⟨sq.lhs, [sq.lhs, sq.item], seqTag sq.history⟩, ?_, ?_, rfl⟩
          · simp
          · simp
    | some s =>
        rw [hsep] at h
        dsimp only at h
        simp only [Except.ok.injEq, Prod.mk.injEq] at h
        refine ⟨?_, htag, ?_⟩
        · rw [← h.1]
          rfl
        · rw [← h.1]
          refine ⟨⟨c, [c, s, sq.item], seqTag sq.history⟩, ?_, ?_, rfl⟩
          · simp
          · simp
  · intro hsep
    unfold rewrite_sequence
    rw [hmax]
    dsimp only
    rw [hmin, hsep]

/-- Witness for C10: the Kleene-star sequence rule 0 -> 1* rewrites to the
base 0 -> [] and the left-recursive step 0 -> [0, 1]. -/
theorem claim_C10_witness :
    rewrite_sequence ⟨0, 1, 0, none, none, NullHistory⟩ 5 =
      .ok ([⟨0, [], seqTag NullHistory⟩, ⟨0, [0, 1], seqTag NullHistory⟩],
        5) :=
  (claim_C10_kleene_star ⟨0, 1, 0, none, none, NullHistory⟩ 5 rfl rfl).2 rfl
